import Mathlib

/-!
Shallow embedding of the bit-interleaving core of `src/ileave.hpp` (namespace
`voxelio`).  Machine integers (`uint32_t`, `uint64_t`) are modelled as `Nat`;
wherever the C++ code can overflow a 64-bit register (left shifts of
`uint64_t` values) the embedding truncates explicitly with `% 2^64`, and the
`static_cast<uint32_t>` narrowing in `dileave3` is modelled with `% 2^32`.
C++ loops become structural recursions on the (always explicit) iteration
count.  Assertion macros from `assert.hpp` (not part of the sources) are
modelled per the spec's failure policy: a tripped debug assertion aborts, so
assertion-guarded dispatch functions return `Option Nat`, with `none` for an
assertion failure.
-/

set_option maxRecDepth 1000000

namespace voxelio

/-- Modelled from the spec: the ceiling-division utility for unsigned
integers (`voxelio::divCeil` from `intdiv.hpp`, which is not among the
sources; §6 of the spec requires "a ceiling-division function for unsigned
integers"). -/
def divCeil (x y : Nat) : Nat := x / y + (if x % y = 0 then 0 else 1)

/-- Recursion worker for `log2floor`, structurally recursive on a fuel
argument (64 suffices for every 64-bit value) so that it evaluates by
kernel reduction: halves the argument until it drops below 2, counting the
steps. -/
def log2floorAux : Nat → Nat → Nat
  | _, 0 => 0
  | n, fuel+1 => if 2 ≤ n then log2floorAux (n / 2) fuel + 1 else 0

/-- Modelled from the spec: the floor-log2 utility (`voxelio::log2floor`
from `intlog.hpp`, which is not among the sources; §6 of the spec requires
"a floor-log2 function returning the index of the highest set bit, with a
defined result (conventionally 0) for an input of 0"). -/
def log2floor (n : Nat) : Nat := log2floorAux n 64

/-- Loop of `detail::ileaveZeros_naive` (ileave.hpp:37-41).  Arguments are
the running `input`, the output bit cursor `b_out`, and the number of
remaining iterations; each iteration ORs bit 0 of `input` into the result at
position `b_out`, shifts `input` right once and advances `b_out` by
`bits + 1`. -/
def ileaveZerosNaiveGo (bits : Nat) : Nat → Nat → Nat → Nat
  | _input, _b_out, 0 => 0
  | input, b_out, k+1 =>
      ((input &&& 1) <<< b_out) ||| ileaveZerosNaiveGo bits (input >>> 1) (b_out + (bits + 1)) k

/-- `detail::ileaveZeros_naive` (ileave.hpp:32-44): interleaves `bits`
zero-bits after every bit of `input`; iteration count
`min(32, divCeil(64, bits + 1))`. -/
def ileaveZeros_naive (input bits : Nat) : Nat :=
  ileaveZerosNaiveGo bits input 0 (min 32 (divCeil 64 (bits + 1)))

/-- Inner loop of `detail::duplBits_naive` (ileave.hpp:61-63): ORs the fixed
bit value `bit` into the result at `j` consecutive positions starting at
`b_out`. -/
def duplBitsInner (bit : Nat) : Nat → Nat → Nat
  | _b_out, 0 => 0
  | b_out, j+1 => (bit <<< b_out) ||| duplBitsInner bit (b_out + 1) j

/-- Outer loop of `detail::duplBits_naive` (ileave.hpp:60-64): for each input
bit index `i` (with `k` iterations remaining) duplicates bit `i` of `input`
`o` times starting at output position `b_out`. -/
def duplBitsOuter (input o : Nat) : Nat → Nat → Nat → Nat
  | _i, _b_out, 0 => 0
  | i, b_out, k+1 =>
      duplBitsInner ((input >>> i) &&& 1) b_out o ||| duplBitsOuter input o (i+1) (b_out + o) k

/-- `detail::duplBits_naive` (ileave.hpp:52-67): duplicates each input bit
`o` times; returns 0 when `o = 0`; iteration count `divCeil(64, o)`. -/
def duplBits_naive (input o : Nat) : Nat :=
  if o = 0 then 0 else duplBitsOuter input o 0 0 (divCeil 64 o)

/-- The `MASKS` tables of `ileaveZeros_const` (ileave.hpp:84-90) and
`remIleavedBits_const` (ileave.hpp:147-154).  Both arrays are built from the
same formula: entry `i` duplicates every bit of
`ileaveZeros_naive(~uint32_t(0), BITS)` `2^i` times (duplication counts
1, 2, 4, 8, 16, 32). -/
def ileaveMasks (BITS i : Nat) : Nat :=
  duplBits_naive (ileaveZeros_naive 0xFFFFFFFF BITS) (2^i)

/-- One iteration of the `ileaveZeros_const` doubling loop (ileave.hpp:96-98):
`n |= n << (BITS * 2^i); n &= MASKS[i]`, with the 64-bit truncation of the
left shift made explicit. -/
def ileaveStep (BITS n i : Nat) : Nat :=
  (n ||| ((n <<< (BITS * 2^i)) % 2^64)) &&& ileaveMasks BITS i

/-- The `ileaveZeros_const` loop (ileave.hpp:95-99), running the step at
indices `i, i-1, ..., 0`. -/
def ileaveLoop (BITS : Nat) : Nat → Nat → Nat
  | n, 0 => ileaveStep BITS n 0
  | n, i+1 => ileaveLoop BITS (ileaveStep BITS n (i+1)) i

/-- `ileaveZeros_const<BITS>` (ileave.hpp:77-103): identity for `BITS = 0`,
otherwise the doubling loop started at index
`4 - log2floor(BITS >> 1)`. -/
def ileaveZeros_const (BITS input : Nat) : Nat :=
  if BITS = 0 then input
  else ileaveLoop BITS input (4 - log2floor (BITS >>> 1))

/-- One iteration of the `remIleavedBits_const` halving loop
(ileave.hpp:160-164): `input |= input >> ((1 << i) * BITS);
input &= MASKS[i + 1]`. -/
def remStep (BITS n i : Nat) : Nat :=
  (n ||| (n >>> ((2^i) * BITS))) &&& ileaveMasks BITS (i+1)

/-- The `remIleavedBits_const` loop (ileave.hpp:160-164), running the step at
ascending indices `i, i+1, ...` for the given number of remaining
iterations. -/
def remLoop (BITS : Nat) : Nat → Nat → Nat → Nat
  | n, _i, 0 => n
  | n, i, k+1 => remLoop BITS (remStep BITS n i) (i+1) k

/-- `remIleavedBits_const<BITS>` (ileave.hpp:140-168): identity for
`BITS = 0`, otherwise masks the input with `MASKS[0]` and runs
`5 - log2floor(BITS >> 1)` iterations of the halving loop. -/
def remIleavedBits_const (BITS input : Nat) : Nat :=
  if BITS = 0 then input
  else remLoop BITS (input &&& ileaveMasks BITS 0) 0 (5 - log2floor (BITS >>> 1))

/-- The literal `MASKS` array of `ileave2` (ileave.hpp:184-188). -/
def ileave2Masks : Nat → Nat
  | 0 => 0x5555555555555555
  | 1 => 0x3333333333333333
  | 2 => 0x0F0F0F0F0F0F0F0F
  | 3 => 0x00FF00FF00FF00FF
  | _ => 0x0000FFFF0000FFFF

/-- One iteration of the inner loop of `ileave2` (ileave.hpp:196-197):
`n |= n << (1 << i); n &= MASKS[i]`, 64-bit truncation explicit. -/
def ileave2Step (n i : Nat) : Nat :=
  (n ||| ((n <<< (2^i)) % 2^64)) &&& ileave2Masks i

/-- The inner loop of `ileave2` (ileave.hpp:195-198), iterating from index
`i` down to 0. -/
def ileave2Spread : Nat → Nat → Nat
  | n, 0 => ileave2Step n 0
  | n, i+1 => ileave2Spread (ileave2Step n (i+1)) i

/-- `ileave2` (ileave.hpp:182-203): the outer loop spreads `hi` (shifted left
by 1) and `lo` (shifted left by 0) and ORs the results; the `hi` shift is
truncated to 64 bits as in the C++ (`result |= n << (1 - i)` on
`uint64_t`). -/
def ileave2 (hi lo : Nat) : Nat :=
  (((ileave2Spread hi 4) <<< 1) % 2^64) ||| (ileave2Spread lo 4)

/-- `ileave3` (ileave.hpp:224-227):
`(ileaveZeros_const<2>(x) << 2) | (ileaveZeros_const<2>(y) << 1) |
 ileaveZeros_const<2>(z)` with the `uint64_t` shifts truncated. -/
def ileave3 (x y z : Nat) : Nat :=
  (((ileaveZeros_const 2 x) <<< 2) % 2^64) ||| (((ileaveZeros_const 2 y) <<< 1) % 2^64) |||
    (ileaveZeros_const 2 z)

/-- `dileave3` (ileave.hpp:251-256): writes
`static_cast<uint32_t>(remIleavedBits_const<2>(n >> s))` for `s = 2, 1, 0`
into `out[0..2]`; the narrowing cast is the explicit `% 2^32`.  The output
array is modelled as a triple. -/
def dileave3 (n : Nat) : Nat × Nat × Nat :=
  ((remIleavedBits_const 2 (n >>> 2)) % 2^32,
   (remIleavedBits_const 2 (n >>> 1)) % 2^32,
   (remIleavedBits_const 2 (n >>> 0)) % 2^32)

/-- Loop of `ileaveBytes_const` (ileave.hpp:272-275): with `k` iterations
remaining at lane index `i`, ORs `ileaveZeros_const<COUNT-1>(bytes & 0xff)
<< i` into the result and shifts `bytes` right by 8. -/
def ileaveBytesLoop (COUNT : Nat) : Nat → Nat → Nat → Nat
  | _bytes, _i, 0 => 0
  | bytes, i, k+1 =>
      (((ileaveZeros_const (COUNT - 1) (bytes &&& 0xff)) <<< i) % 2^64) |||
        ileaveBytesLoop COUNT (bytes >>> 8) (i+1) k

/-- `ileaveBytes_const<COUNT>` (ileave.hpp:266-278): 0 for `COUNT = 0`
(the `if constexpr` guard), otherwise `COUNT` iterations of the lane
loop. -/
def ileaveBytes_const (COUNT bytes : Nat) : Nat :=
  if COUNT = 0 then 0 else ileaveBytesLoop COUNT bytes 0 COUNT

/-- `detail::ileaveBytes_jmp` (ileave.hpp:297-314) under debug-build
semantics: `VXIO_DEBUG_ASSERT_LE(count, 8)` aborts for `count > 8`
(modelled as `none`; the failure policy for assertions is modelled from the
spec, §7, since `assert.hpp` is not among the sources), then the `switch`
dispatches to the matching `ileaveBytes_const` instantiation; the
fall-through `VXIO_DEBUG_ASSERT_UNREACHABLE` is likewise `none`. -/
def ileaveBytes_jmp (bytes count : Nat) : Option Nat :=
  if count ≤ 8 then
    match count with
    | 0 => some (ileaveBytes_const 0 bytes)
    | 1 => some (ileaveBytes_const 1 bytes)
    | 2 => some (ileaveBytes_const 2 bytes)
    | 3 => some (ileaveBytes_const 3 bytes)
    | 4 => some (ileaveBytes_const 4 bytes)
    | 5 => some (ileaveBytes_const 5 bytes)
    | 6 => some (ileaveBytes_const 6 bytes)
    | 7 => some (ileaveBytes_const 7 bytes)
    | 8 => some (ileaveBytes_const 8 bytes)
    | _ => none
  else none

/-- `ileaveBytes` (ileave.hpp:324-327): delegates to
`detail::ileaveBytes_jmp`. -/
def ileaveBytes (bytes count : Nat) : Option Nat :=
  ileaveBytes_jmp bytes count

/-- Loop of `dileaveBytes_const` (ileave.hpp:337-341): with `k` iterations
remaining at lane index `i`, ORs `remIleavedBits_const<COUNT-1>(ileaved >>
i)` into the accumulator and then shifts the accumulator left by 8 (64-bit
truncation explicit); note the shift happens after the OR on every
iteration, including the last. -/
def dileaveBytesLoop (COUNT ileaved : Nat) : Nat → Nat → Nat → Nat
  | result, _i, 0 => result
  | result, i, k+1 =>
      dileaveBytesLoop COUNT ileaved
        (((result ||| remIleavedBits_const (COUNT - 1) (ileaved >>> i)) <<< 8) % 2^64)
        (i+1) k

/-- `dileaveBytes_const<COUNT>` (ileave.hpp:331-344): 0 for `COUNT = 0`,
otherwise `COUNT` iterations of the accumulator loop. -/
def dileaveBytes_const (COUNT ileaved : Nat) : Nat :=
  if COUNT = 0 then 0 else dileaveBytesLoop COUNT ileaved 0 0 COUNT

/-- `detail::dileaveBytes_jmp` (ileave.hpp:349-366) under debug-build
semantics, exactly parallel to `ileaveBytes_jmp`. -/
def dileaveBytes_jmp (bytes count : Nat) : Option Nat :=
  if count ≤ 8 then
    match count with
    | 0 => some (dileaveBytes_const 0 bytes)
    | 1 => some (dileaveBytes_const 1 bytes)
    | 2 => some (dileaveBytes_const 2 bytes)
    | 3 => some (dileaveBytes_const 3 bytes)
    | 4 => some (dileaveBytes_const 4 bytes)
    | 5 => some (dileaveBytes_const 5 bytes)
    | 6 => some (dileaveBytes_const 6 bytes)
    | 7 => some (dileaveBytes_const 7 bytes)
    | 8 => some (dileaveBytes_const 8 bytes)
    | _ => none
  else none

/-- `dileave_bytes` (ileave.hpp:370-373): delegates to
`detail::dileaveBytes_jmp`. -/
def dileave_bytes (bytes count : Nat) : Option Nat :=
  dileaveBytes_jmp bytes count

/-! ### Bitwise toolkit: distribution of the word operations over `|||` -/

theorem lor_and_right (a b m : Nat) : (a ||| b) &&& m = (a &&& m) ||| (b &&& m) := by
  apply Nat.eq_of_testBit_eq
  intro i
  simp [Nat.testBit_land, Nat.testBit_lor, Bool.and_or_distrib_right]

theorem lor_shiftLeft (a b s : Nat) : (a ||| b) <<< s = (a <<< s) ||| (b <<< s) := by
  apply Nat.eq_of_testBit_eq
  intro i
  simp [Nat.testBit_shiftLeft, Nat.testBit_lor, Bool.and_or_distrib_left]

theorem lor_shiftRight (a b s : Nat) : (a ||| b) >>> s = (a >>> s) ||| (b >>> s) := by
  apply Nat.eq_of_testBit_eq
  intro i
  simp [Nat.testBit_shiftRight, Nat.testBit_lor]

theorem lor_mod_two_pow (a b w : Nat) : (a ||| b) % 2^w = (a % 2^w) ||| (b % 2^w) := by
  apply Nat.eq_of_testBit_eq
  intro i
  simp [Nat.testBit_mod_two_pow, Nat.testBit_lor, Bool.and_or_distrib_left]

theorem lor_lor_swap (a b c d : Nat) : (a ||| b) ||| (c ||| d) = (a ||| c) ||| (b ||| d) := by
  apply Nat.eq_of_testBit_eq
  intro i
  simp only [Nat.testBit_lor]
  cases a.testBit i <;> cases b.testBit i <;> cases c.testBit i <;> cases d.testBit i <;> rfl

/-! ### Decomposition of a number below `2^(w+1)` into its top bit and remainder -/

theorem div_two_pow_eq_one {w x : Nat} (h1 : 2^w ≤ x) (h2 : x < 2^(w+1)) : x / 2^w = 1 := by
  have hpos : 0 < 2^w := Nat.pos_pow_of_pos w (by decide)
  have h2' : x < 2 * 2^w := by
    calc x < 2^(w+1) := h2
    _ = 2 * 2^w := by rw [Nat.pow_succ, Nat.mul_comm]
  have h3 : 1 ≤ x / 2^w := (Nat.le_div_iff_mul_le hpos).mpr (by omega)
  have h4 : x / 2^w < 2 := (Nat.div_lt_iff_lt_mul hpos).mpr (by omega)
  omega

theorem testBit_top_true {w x : Nat} (h1 : 2^w ≤ x) (h2 : x < 2^(w+1)) :
    x.testBit w = true := by
  rw [Nat.testBit_to_div_mod, div_two_pow_eq_one h1 h2]
  rfl

theorem lor_high_decomp {w x : Nat} (h1 : 2^w ≤ x) (h2 : x < 2^(w+1)) :
    x = 2^w ||| x % 2^w := by
  apply Nat.eq_of_testBit_eq
  intro i
  rw [Nat.testBit_lor, Nat.testBit_two_pow, Nat.testBit_mod_two_pow]
  rcases Nat.lt_trichotomy i w with h | h | h
  · have : ¬ (w = i) := by omega
    simp [this, h]
  · subst h
    simp [testBit_top_true h1 h2]
  · have hni : ¬ (w = i) := by omega
    have hxi : x.testBit i = false := by
      apply Nat.testBit_lt_two_pow
      calc x < 2^(w+1) := h2
      _ ≤ 2^i := Nat.pow_le_pow_right (by decide) (by omega)
    have hiw : ¬ (i < w) := by omega
    simp [hni, hxi, hiw]

/-! ### `bitImage`: the canonical form of an OR-linear word function.

A function `f` satisfying `f (a ||| b) = f a ||| f b` and `f 0 = 0` is
determined below `2^w` by its values on the powers of two; `bitImage f x w`
is the OR of `f (2^k)` over the set bits `k < w` of `x`. -/

def bitImage (f : Nat → Nat) (x : Nat) : Nat → Nat
  | 0 => 0
  | k+1 => (if x.testBit k then f (2^k) else 0) ||| bitImage f x k

theorem bitImage_congr_basis {f g : Nat → Nat} {w : Nat}
    (h : ∀ k, k < w → f (2^k) = g (2^k)) (x : Nat) :
    bitImage f x w = bitImage g x w := by
  induction w with
  | zero => rfl
  | succ v ih =>
    simp only [bitImage]
    rw [h v (Nat.lt_succ_self v), ih (fun k hk => h k (Nat.lt_succ_of_lt hk))]

theorem bitImage_congr_bits {f : Nat → Nat} {w x y : Nat}
    (h : ∀ k, k < w → x.testBit k = y.testBit k) :
    bitImage f x w = bitImage f y w := by
  induction w with
  | zero => rfl
  | succ v ih =>
    simp only [bitImage]
    rw [h v (Nat.lt_succ_self v), ih (fun k hk => h k (Nat.lt_succ_of_lt hk))]

theorem orlin_decomp {f : Nat → Nat}
    (hf : ∀ a b, f (a ||| b) = f a ||| f b) (h0 : f 0 = 0) :
    ∀ w x, x < 2^w → f x = bitImage f x w := by
  intro w
  induction w with
  | zero =>
    intro x hx
    have : x = 0 := Nat.lt_one_iff.mp hx
    subst this
    exact h0
  | succ v ih =>
    intro x hx
    by_cases hge : 2^v ≤ x
    · have hdec := lor_high_decomp hge hx
      have hmod : x % 2^v < 2^v := Nat.mod_lt x (Nat.pos_pow_of_pos v (by decide))
      rw [hdec, hf]
      simp only [bitImage]
      rw [← hdec]
      rw [testBit_top_true hge hx]
      simp only [if_true]
      rw [ih (x % 2^v) hmod]
      congr 1
      apply bitImage_congr_bits
      intro k hk
      simp [Nat.testBit_mod_two_pow, hk]
    · have hlt : x < 2^v := Nat.lt_of_not_le hge
      simp only [bitImage]
      rw [Nat.testBit_lt_two_pow hlt]
      simp only [Bool.false_eq_true, if_false, Nat.zero_or]
      exact ih x hlt

theorem bitImage_testBit (f : Nat → Nat) (x : Nat) :
    ∀ w m, (bitImage f x w).testBit m = true ↔
      ∃ k, k < w ∧ x.testBit k = true ∧ (f (2^k)).testBit m = true := by
  intro w
  induction w with
  | zero =>
    intro m
    simp [bitImage, Nat.zero_testBit]
  | succ v ih =>
    intro m
    simp only [bitImage, Nat.testBit_lor, Bool.or_eq_true, ih]
    constructor
    · rintro (htop | ⟨k, hk, hxk, hfk⟩)
      · by_cases hxv : x.testBit v
        · rw [if_pos hxv] at htop
          exact ⟨v, Nat.lt_succ_self v, hxv, htop⟩
        · rw [if_neg hxv] at htop
          rw [Nat.zero_testBit] at htop
          exact absurd htop (by decide)
      · exact ⟨k, Nat.lt_succ_of_lt hk, hxk, hfk⟩
    · rintro ⟨k, hk, hxk, hfk⟩
      rcases Nat.lt_succ_iff_lt_or_eq.mp hk with h | h
      · exact Or.inr ⟨k, h, hxk, hfk⟩
      · subst h
        rw [hxk]
        exact Or.inl hfk

theorem orlin_eq_of_basis {f g : Nat → Nat}
    (hf : ∀ a b, f (a ||| b) = f a ||| f b) (hf0 : f 0 = 0)
    (hg : ∀ a b, g (a ||| b) = g a ||| g b) (hg0 : g 0 = 0)
    (w : Nat) (hbase : ∀ k, k < w → f (2^k) = g (2^k)) :
    ∀ x, x < 2^w → f x = g x := by
  intro x hx
  rw [orlin_decomp hf hf0 w x hx, orlin_decomp hg hg0 w x hx]
  exact bitImage_congr_basis hbase x

theorem orlin_testBit {f : Nat → Nat}
    (hf : ∀ a b, f (a ||| b) = f a ||| f b) (h0 : f 0 = 0)
    {w x : Nat} (hx : x < 2^w) (m : Nat) :
    (f x).testBit m = true ↔
      ∃ k, k < w ∧ x.testBit k = true ∧ (f (2^k)).testBit m = true := by
  rw [orlin_decomp hf h0 w x hx]
  exact bitImage_testBit f x w m

/-! ### OR-linearity of the interleaving primitives -/

theorem ileaveStep_lor (BITS i a b : Nat) :
    ileaveStep BITS (a ||| b) i = ileaveStep BITS a i ||| ileaveStep BITS b i := by
  unfold ileaveStep
  rw [lor_shiftLeft, lor_mod_two_pow, lor_lor_swap, lor_and_right]

theorem ileaveStep_zero (BITS i : Nat) : ileaveStep BITS 0 i = 0 := by
  simp [ileaveStep, Nat.zero_shiftLeft, Nat.zero_mod, Nat.zero_or, Nat.zero_and]

theorem ileaveLoop_lor (BITS : Nat) :
    ∀ i a b, ileaveLoop BITS (a ||| b) i = ileaveLoop BITS a i ||| ileaveLoop BITS b i := by
  intro i
  induction i with
  | zero =>
    intro a b
    simp only [ileaveLoop]
    exact ileaveStep_lor BITS 0 a b
  | succ v ih =>
    intro a b
    simp only [ileaveLoop]
    rw [ileaveStep_lor]
    exact ih _ _

theorem ileaveLoop_zero (BITS : Nat) : ∀ i, ileaveLoop BITS 0 i = 0 := by
  intro i
  induction i with
  | zero =>
    simp only [ileaveLoop]
    exact ileaveStep_zero BITS 0
  | succ v ih =>
    simp only [ileaveLoop]
    rw [ileaveStep_zero]
    exact ih

theorem ileaveZeros_const_lor (BITS a b : Nat) :
    ileaveZeros_const BITS (a ||| b) = ileaveZeros_const BITS a ||| ileaveZeros_const BITS b := by
  by_cases h : BITS = 0
  · simp [ileaveZeros_const, h]
  · simp only [ileaveZeros_const, if_neg h]
    exact ileaveLoop_lor BITS _ a b

theorem ileaveZeros_const_zero (BITS : Nat) : ileaveZeros_const BITS 0 = 0 := by
  by_cases h : BITS = 0
  · simp [ileaveZeros_const, h]
  · simp only [ileaveZeros_const, if_neg h]
    exact ileaveLoop_zero BITS _

theorem remStep_lor (BITS i a b : Nat) :
    remStep BITS (a ||| b) i = remStep BITS a i ||| remStep BITS b i := by
  unfold remStep
  rw [lor_shiftRight, lor_lor_swap, lor_and_right]

theorem remStep_zero (BITS i : Nat) : remStep BITS 0 i = 0 := by
  simp [remStep, Nat.zero_shiftRight, Nat.zero_or, Nat.zero_and]

theorem remLoop_lor (BITS : Nat) :
    ∀ k i a b, remLoop BITS (a ||| b) i k = remLoop BITS a i k ||| remLoop BITS b i k := by
  intro k
  induction k with
  | zero =>
    intro i a b
    simp only [remLoop]
  | succ v ih =>
    intro i a b
    simp only [remLoop]
    rw [remStep_lor]
    exact ih _ _ _

theorem remLoop_zero (BITS : Nat) : ∀ k i, remLoop BITS 0 i k = 0 := by
  intro k
  induction k with
  | zero =>
    intro i
    simp only [remLoop]
  | succ v ih =>
    intro i
    simp only [remLoop]
    rw [remStep_zero]
    exact ih _

theorem remIleavedBits_const_lor (BITS a b : Nat) :
    remIleavedBits_const BITS (a ||| b) =
      remIleavedBits_const BITS a ||| remIleavedBits_const BITS b := by
  by_cases h : BITS = 0
  · simp [remIleavedBits_const, h]
  · simp only [remIleavedBits_const, if_neg h]
    rw [lor_and_right]
    exact remLoop_lor BITS _ _ _ _

theorem remIleavedBits_const_zero (BITS : Nat) : remIleavedBits_const BITS 0 = 0 := by
  by_cases h : BITS = 0
  · simp [remIleavedBits_const, h]
  · simp only [remIleavedBits_const, if_neg h]
    rw [Nat.zero_and]
    exact remLoop_zero BITS _ _

theorem ileave2Step_lor (i a b : Nat) :
    ileave2Step (a ||| b) i = ileave2Step a i ||| ileave2Step b i := by
  unfold ileave2Step
  rw [lor_shiftLeft, lor_mod_two_pow, lor_lor_swap, lor_and_right]

theorem ileave2Step_zero (i : Nat) : ileave2Step 0 i = 0 := by
  simp [ileave2Step, Nat.zero_shiftLeft, Nat.zero_mod, Nat.zero_or, Nat.zero_and]

theorem ileave2Spread_lor :
    ∀ i a b, ileave2Spread (a ||| b) i = ileave2Spread a i ||| ileave2Spread b i := by
  intro i
  induction i with
  | zero =>
    intro a b
    simp only [ileave2Spread]
    exact ileave2Step_lor 0 a b
  | succ v ih =>
    intro a b
    simp only [ileave2Spread]
    rw [ileave2Step_lor]
    exact ih _ _

theorem ileave2Spread_zero : ∀ i, ileave2Spread 0 i = 0 := by
  intro i
  induction i with
  | zero =>
    simp only [ileave2Spread]
    exact ileave2Step_zero 0
  | succ v ih =>
    simp only [ileave2Spread]
    rw [ileave2Step_zero]
    exact ih

theorem ileaveZerosNaiveGo_lor (bits : Nat) :
    ∀ k a b c, ileaveZerosNaiveGo bits (a ||| b) c k =
      ileaveZerosNaiveGo bits a c k ||| ileaveZerosNaiveGo bits b c k := by
  intro k
  induction k with
  | zero =>
    intro a b c
    simp [ileaveZerosNaiveGo]
  | succ v ih =>
    intro a b c
    simp only [ileaveZerosNaiveGo]
    rw [lor_and_right, lor_shiftLeft, lor_shiftRight, ih, lor_lor_swap]

theorem ileaveZerosNaiveGo_zero (bits : Nat) :
    ∀ k c, ileaveZerosNaiveGo bits 0 c k = 0 := by
  intro k
  induction k with
  | zero =>
    intro c
    rfl
  | succ v ih =>
    intro c
    simp only [ileaveZerosNaiveGo]
    rw [Nat.zero_and, Nat.zero_shiftLeft, Nat.zero_shiftRight, ih, Nat.zero_or]

theorem ileaveZeros_naive_lor (a b bits : Nat) :
    ileaveZeros_naive (a ||| b) bits = ileaveZeros_naive a bits ||| ileaveZeros_naive b bits := by
  unfold ileaveZeros_naive
  exact ileaveZerosNaiveGo_lor bits _ a b 0

theorem ileaveZeros_naive_zero (bits : Nat) : ileaveZeros_naive 0 bits = 0 := by
  unfold ileaveZeros_naive
  exact ileaveZerosNaiveGo_zero bits _ 0

theorem ileaveBytesLoop_lor (COUNT : Nat) :
    ∀ k a b i, ileaveBytesLoop COUNT (a ||| b) i k =
      ileaveBytesLoop COUNT a i k ||| ileaveBytesLoop COUNT b i k := by
  intro k
  induction k with
  | zero =>
    intro a b i
    simp [ileaveBytesLoop]
  | succ v ih =>
    intro a b i
    simp only [ileaveBytesLoop]
    rw [lor_and_right, ileaveZeros_const_lor, lor_shiftLeft, lor_mod_two_pow, lor_shiftRight,
      ih, lor_lor_swap]

theorem ileaveBytesLoop_zero (COUNT : Nat) :
    ∀ k i, ileaveBytesLoop COUNT 0 i k = 0 := by
  intro k
  induction k with
  | zero =>
    intro i
    rfl
  | succ v ih =>
    intro i
    simp only [ileaveBytesLoop]
    rw [Nat.zero_and, ileaveZeros_const_zero, Nat.zero_shiftLeft, Nat.zero_mod,
      Nat.zero_shiftRight, ih, Nat.zero_or]

theorem ileaveBytes_const_lor (COUNT a b : Nat) :
    ileaveBytes_const COUNT (a ||| b) =
      ileaveBytes_const COUNT a ||| ileaveBytes_const COUNT b := by
  by_cases h : COUNT = 0
  · simp [ileaveBytes_const, h]
  · simp only [ileaveBytes_const, if_neg h]
    exact ileaveBytesLoop_lor COUNT COUNT a b 0

theorem ileaveBytes_const_zero (COUNT : Nat) : ileaveBytes_const COUNT 0 = 0 := by
  by_cases h : COUNT = 0
  · simp [ileaveBytes_const, h]
  · simp only [ileaveBytes_const, if_neg h]
    exact ileaveBytesLoop_zero COUNT COUNT 0

/-! ### Claim theorems -/

/-- C1, counterexample: for the supported stride BITS = 16 and the 32-bit
input x = 16, removing the interleaved bits after inserting them yields 0,
not x: bit 4 of the input would land at output position 4·17 = 68 ≥ 64 and
is dropped by the 64-bit interleaver, so the round trip does not restore
every 32-bit input. -/
theorem remIleaved_ileaveZeros_roundTrip_cex :
    (16 = 1 ∨ 16 = 2 ∨ 16 = 4 ∨ 16 = 8 ∨ 16 = 16) ∧ (16 : Nat) < 2^32 ∧
      remIleavedBits_const 16 (ileaveZeros_const 16 16) ≠ 16 := by
  refine ⟨by decide, by decide, by decide⟩

/-- C1, amended: for every supported stride BITS ∈ {1, 2, 4, 8, 16},
removing the interleaved bits after inserting them restores every input x
whose bits all fit into the 64-bit interleaved word, i.e. every
x < 2^(min 32 (ceil 64/(BITS+1))) — the exact set of inputs the naive loop
bound keeps (all 32-bit x for BITS = 1; 22, 13, 8, 4 bits for
BITS = 2, 4, 8, 16). -/
theorem remIleaved_ileaveZeros_roundTrip (BITS : Nat)
    (hB : BITS = 1 ∨ BITS = 2 ∨ BITS = 4 ∨ BITS = 8 ∨ BITS = 16)
    (x : Nat) (hx : x < 2^(min 32 (divCeil 64 (BITS + 1)))) :
    remIleavedBits_const BITS (ileaveZeros_const BITS x) = x := by
  have hf : ∀ a b : Nat,
      remIleavedBits_const BITS (ileaveZeros_const BITS (a ||| b)) =
        remIleavedBits_const BITS (ileaveZeros_const BITS a) |||
          remIleavedBits_const BITS (ileaveZeros_const BITS b) := by
    intro a b
    rw [ileaveZeros_const_lor, remIleavedBits_const_lor]
  have hf0 : remIleavedBits_const BITS (ileaveZeros_const BITS 0) = 0 := by
    rw [ileaveZeros_const_zero, remIleavedBits_const_zero]
  rcases hB with h | h | h | h | h <;> subst h
  · have e : min 32 (divCeil 64 (1 + 1)) = 32 := by decide
    rw [e] at hx
    exact orlin_eq_of_basis (f := fun t => remIleavedBits_const 1 (ileaveZeros_const 1 t))
      (g := fun t => t) hf hf0 (fun _ _ => rfl) rfl 32 (by decide) x hx
  · have e : min 32 (divCeil 64 (2 + 1)) = 22 := by decide
    rw [e] at hx
    exact orlin_eq_of_basis (f := fun t => remIleavedBits_const 2 (ileaveZeros_const 2 t))
      (g := fun t => t) hf hf0 (fun _ _ => rfl) rfl 22 (by decide) x hx
  · have e : min 32 (divCeil 64 (4 + 1)) = 13 := by decide
    rw [e] at hx
    exact orlin_eq_of_basis (f := fun t => remIleavedBits_const 4 (ileaveZeros_const 4 t))
      (g := fun t => t) hf hf0 (fun _ _ => rfl) rfl 13 (by decide) x hx
  · have e : min 32 (divCeil 64 (8 + 1)) = 8 := by decide
    rw [e] at hx
    exact orlin_eq_of_basis (f := fun t => remIleavedBits_const 8 (ileaveZeros_const 8 t))
      (g := fun t => t) hf hf0 (fun _ _ => rfl) rfl 8 (by decide) x hx
  · have e : min 32 (divCeil 64 (16 + 1)) = 4 := by decide
    rw [e] at hx
    exact orlin_eq_of_basis (f := fun t => remIleavedBits_const 16 (ileaveZeros_const 16 t))
      (g := fun t => t) hf hf0 (fun _ _ => rfl) rfl 4 (by decide) x hx

/-- Witness for C1 (amended) at BITS = 2, x = 100. -/
theorem remIleaved_ileaveZeros_roundTrip_witness :
    ((2 = 1 ∨ 2 = 2 ∨ 2 = 4 ∨ 2 = 8 ∨ 2 = 16) ∧
        (100 : Nat) < 2^(min 32 (divCeil 64 (2 + 1)))) ∧
      remIleavedBits_const 2 (ileaveZeros_const 2 100) = 100 :=
  ⟨⟨by decide, by decide⟩, remIleaved_ileaveZeros_roundTrip 2 (by decide) 100 (by decide)⟩

/-- C4: for every supported stride BITS ∈ {1, 2, 4, 8, 16} and every 32-bit
input x, the specialized shift-and-mask implementation agrees bit-for-bit
with the naive reference. -/
theorem ileaveZeros_const_eq_naive (BITS : Nat)
    (hB : BITS = 1 ∨ BITS = 2 ∨ BITS = 4 ∨ BITS = 8 ∨ BITS = 16)
    (x : Nat) (hx : x < 2^32) :
    ileaveZeros_const BITS x = ileaveZeros_naive x BITS := by
  have hg : ∀ a b : Nat,
      ileaveZeros_naive (a ||| b) BITS = ileaveZeros_naive a BITS ||| ileaveZeros_naive b BITS :=
    fun a b => ileaveZeros_naive_lor a b BITS
  rcases hB with h | h | h | h | h <;> subst h
  · exact orlin_eq_of_basis (f := fun t => ileaveZeros_const 1 t)
      (g := fun t => ileaveZeros_naive t 1) (ileaveZeros_const_lor 1)
      (ileaveZeros_const_zero 1) hg (ileaveZeros_naive_zero 1) 32 (by decide) x hx
  · exact orlin_eq_of_basis (f := fun t => ileaveZeros_const 2 t)
      (g := fun t => ileaveZeros_naive t 2) (ileaveZeros_const_lor 2)
      (ileaveZeros_const_zero 2) hg (ileaveZeros_naive_zero 2) 32 (by decide) x hx
  · exact orlin_eq_of_basis (f := fun t => ileaveZeros_const 4 t)
      (g := fun t => ileaveZeros_naive t 4) (ileaveZeros_const_lor 4)
      (ileaveZeros_const_zero 4) hg (ileaveZeros_naive_zero 4) 32 (by decide) x hx
  · exact orlin_eq_of_basis (f := fun t => ileaveZeros_const 8 t)
      (g := fun t => ileaveZeros_naive t 8) (ileaveZeros_const_lor 8)
      (ileaveZeros_const_zero 8) hg (ileaveZeros_naive_zero 8) 32 (by decide) x hx
  · exact orlin_eq_of_basis (f := fun t => ileaveZeros_const 16 t)
      (g := fun t => ileaveZeros_naive t 16) (ileaveZeros_const_lor 16)
      (ileaveZeros_const_zero 16) hg (ileaveZeros_naive_zero 16) 32 (by decide) x hx

/-- Witness for C4 at BITS = 8, x = 12345. -/
theorem ileaveZeros_const_eq_naive_witness :
    ((8 = 1 ∨ 8 = 2 ∨ 8 = 4 ∨ 8 = 8 ∨ 8 = 16) ∧ (12345 : Nat) < 2^32) ∧
      ileaveZeros_const 8 12345 = ileaveZeros_naive 12345 8 :=
  ⟨⟨by decide, by decide⟩, ileaveZeros_const_eq_naive 8 (by decide) 12345 (by decide)⟩

/-- C2, divergence exhibited: the byte-plane round trip fails already at
count = 1, bytes = 1 (whose single lane is below the lane bound and whose
high lanes are zero): interleaving gives 1 back, but de-interleaving returns
256 instead of 1, because the de-interleave loop shifts the accumulator left
by 8 after OR-ing in each extracted lane, including the last one. -/
theorem dileave_ileave_bytes_roundTrip_fails :
    ileaveBytes 1 1 = some 1 ∧ dileave_bytes 1 1 = some 256 := by
  exact ⟨by decide, by decide⟩

/-- C9: under the debug-build failure policy, invoking the byte-plane
functions with count = 9 (or any count > 8) trips the assertion
(modelled as `none`) in both dispatchers rather than returning a truncated
or clamped value, and for count ≤ 8 no assertion fires (both dispatchers
return a value). -/
theorem byteDispatch_assertion (count : Nat) :
    (8 < count → ∀ bytes, ileaveBytes bytes count = none ∧ dileave_bytes bytes count = none) ∧
      (count ≤ 8 → ∀ bytes,
        (ileaveBytes bytes count).isSome ∧ (dileave_bytes bytes count).isSome) := by
  constructor
  · intro h bytes
    constructor
    · simp only [ileaveBytes, ileaveBytes_jmp]
      rw [if_neg (by omega)]
    · simp only [dileave_bytes, dileaveBytes_jmp]
      rw [if_neg (by omega)]
  · intro h bytes
    interval_cases count <;> exact ⟨rfl, rfl⟩

/-- Witness for C9 at count = 9 (assertion trips) and count = 3 (none
fires), bytes = 0. -/
theorem byteDispatch_assertion_witness :
    (8 < 9 ∧ ileaveBytes 0 9 = none ∧ dileave_bytes 0 9 = none) ∧
      (3 ≤ 8 ∧ (ileaveBytes 0 3).isSome ∧ (dileave_bytes 0 3).isSome) :=
  ⟨⟨by decide, ((byteDispatch_assertion 9).1 (by decide) 0).1,
      ((byteDispatch_assertion 9).1 (by decide) 0).2⟩,
    ⟨by decide, ((byteDispatch_assertion 3).2 (by decide) 0).1,
      ((byteDispatch_assertion 3).2 (by decide) 0).2⟩⟩

theorem shl8_trunc_mod256 (X : Nat) : ((X <<< 8) % 2^64) % 256 = 0 := by
  rw [Nat.shiftLeft_eq]
  have h1 : (X * 2^8) % 2^64 % 256 = (X * 2^8) % 256 :=
    Nat.mod_mod_of_dvd _ ⟨2^56, by norm_num⟩
  rw [h1]
  have h2 : (2:Nat)^8 = 256 := by norm_num
  rw [h2, Nat.mul_mod_left]

theorem dileaveBytesLoop_low_byte (COUNT ileaved : Nat) :
    ∀ k, 1 ≤ k → ∀ result i, dileaveBytesLoop COUNT ileaved result i k % 256 = 0 := by
  intro k
  induction k with
  | zero =>
    intro h
    exact absurd h (by decide)
  | succ v ih =>
    intro _ result i
    cases v with
    | zero =>
      rw [dileaveBytesLoop, dileaveBytesLoop]
      exact shl8_trunc_mod256 _
    | succ u =>
      rw [dileaveBytesLoop]
      exact ih (by omega) _ _

/-- C10: for every lane count in 1..8 and every 64-bit input, the public
`dileave_bytes` returns the value of the matching `dileaveBytes_const`
instantiation, and that value has its lowest 8 bits zero, because the
de-interleave loop shifts the accumulated result left by 8 after OR-ing in
each extracted lane, including the last one. -/
theorem dileave_bytes_low_byte_zero (count input : Nat) (h1 : 1 ≤ count) (h8 : count ≤ 8) :
    dileave_bytes input count = some (dileaveBytes_const count input) ∧
      dileaveBytes_const count input % 256 = 0 := by
  constructor
  · interval_cases count <;> rfl
  · rw [dileaveBytes_const, if_neg (show ¬ count = 0 by omega)]
    exact dileaveBytesLoop_low_byte count input count h1 0 0

/-- Witness for C10 at count = 3, input = 123456789. -/
theorem dileave_bytes_low_byte_zero_witness :
    (1 ≤ 3 ∧ 3 ≤ 8) ∧
      (dileave_bytes 123456789 3 = some (dileaveBytes_const 3 123456789) ∧
        dileaveBytes_const 3 123456789 % 256 = 0) :=
  ⟨⟨by decide, by decide⟩, dileave_bytes_low_byte_zero 3 123456789 (by decide) (by decide)⟩

/-- C8: for every 64-bit code n that fits in 9 bits, read as `abcdefghi`
(a most significant), `dileave3 n` yields the triple (adg, beh, cfi):
the three axes are extracted by de-interleaving with stride 2 at shift
offsets 2, 1, 0. -/
theorem dileave3_bit_pattern (n : Nat) (h : n < 2^9) :
    dileave3 n =
      ((n.testBit 8).toNat * 4 + (n.testBit 5).toNat * 2 + (n.testBit 2).toNat,
       (n.testBit 7).toNat * 4 + (n.testBit 4).toNat * 2 + (n.testBit 1).toNat,
       (n.testBit 6).toNat * 4 + (n.testBit 3).toNat * 2 + (n.testBit 0).toNat) := by
  revert h
  revert n
  decide

/-- Witness for C8 at n = 421 = 0b110100101. -/
theorem dileave3_bit_pattern_witness :
    (421 : Nat) < 2^9 ∧
      dileave3 421 =
        (((421:Nat).testBit 8).toNat * 4 + ((421:Nat).testBit 5).toNat * 2 +
            ((421:Nat).testBit 2).toNat,
         ((421:Nat).testBit 7).toNat * 4 + ((421:Nat).testBit 4).toNat * 2 +
            ((421:Nat).testBit 1).toNat,
         ((421:Nat).testBit 6).toNat * 4 + ((421:Nat).testBit 3).toNat * 2 +
            ((421:Nat).testBit 0).toNat) :=
  ⟨by decide, dileave3_bit_pattern 421 (by decide)⟩

/-! ### C3: the 3-axis Morton round trip.

Each component of `dileave3 (ileave3 x y z)` distributes over the three
OR-ed encoder terms; the matching-shift term is the identity below `2^21`
and the two cross terms vanish, which is checked on the 21 basis bits. -/

theorem morton3_piece_lor (u v a b : Nat) :
    remIleavedBits_const 2 ((((ileaveZeros_const 2 (a ||| b)) <<< u) % 2^64) >>> v) % 2^32 =
      remIleavedBits_const 2 ((((ileaveZeros_const 2 a) <<< u) % 2^64) >>> v) % 2^32 |||
        remIleavedBits_const 2 ((((ileaveZeros_const 2 b) <<< u) % 2^64) >>> v) % 2^32 := by
  rw [ileaveZeros_const_lor, lor_shiftLeft, lor_mod_two_pow, lor_shiftRight,
    remIleavedBits_const_lor, lor_mod_two_pow]

theorem morton3_piece_zero (u v : Nat) :
    remIleavedBits_const 2 ((((ileaveZeros_const 2 0) <<< u) % 2^64) >>> v) % 2^32 = 0 := by
  rw [ileaveZeros_const_zero, Nat.zero_shiftLeft, Nat.zero_mod, Nat.zero_shiftRight,
    remIleavedBits_const_zero, Nat.zero_mod]

theorem morton3_pieceZ_lor (v a b : Nat) :
    remIleavedBits_const 2 ((ileaveZeros_const 2 (a ||| b)) >>> v) % 2^32 =
      remIleavedBits_const 2 ((ileaveZeros_const 2 a) >>> v) % 2^32 |||
        remIleavedBits_const 2 ((ileaveZeros_const 2 b) >>> v) % 2^32 := by
  rw [ileaveZeros_const_lor, lor_shiftRight, remIleavedBits_const_lor, lor_mod_two_pow]

theorem morton3_pieceZ_zero (v : Nat) :
    remIleavedBits_const 2 ((ileaveZeros_const 2 0) >>> v) % 2^32 = 0 := by
  rw [ileaveZeros_const_zero, Nat.zero_shiftRight, remIleavedBits_const_zero, Nat.zero_mod]

/-- C3: for all coordinates x, y, z strictly below 2^21, de-interleaving the
3-axis Morton code restores the coordinates exactly. -/
theorem dileave3_ileave3_roundTrip (x y z : Nat)
    (hx : x < 2^21) (hy : y < 2^21) (hz : z < 2^21) :
    dileave3 (ileave3 x y z) = (x, y, z) := by
  have gz : ∀ a b : Nat, (0 : Nat) = 0 ||| 0 := fun _ _ => (Nat.zero_or 0).symm
  have hxx : remIleavedBits_const 2 ((((ileaveZeros_const 2 x) <<< 2) % 2^64) >>> 2) % 2^32
      = x :=
    orlin_eq_of_basis
      (f := fun t => remIleavedBits_const 2 ((((ileaveZeros_const 2 t) <<< 2) % 2^64) >>> 2) % 2^32)
      (g := fun t => t) (morton3_piece_lor 2 2) (morton3_piece_zero 2 2)
      (fun _ _ => rfl) rfl 21 (by decide) x hx
  have hxy : remIleavedBits_const 2 ((((ileaveZeros_const 2 x) <<< 2) % 2^64) >>> 1) % 2^32
      = 0 :=
    orlin_eq_of_basis
      (f := fun t => remIleavedBits_const 2 ((((ileaveZeros_const 2 t) <<< 2) % 2^64) >>> 1) % 2^32)
      (g := fun _ => 0) (morton3_piece_lor 2 1) (morton3_piece_zero 2 1)
      gz rfl 21 (by decide) x hx
  have hxz : remIleavedBits_const 2 ((((ileaveZeros_const 2 x) <<< 2) % 2^64) >>> 0) % 2^32
      = 0 :=
    orlin_eq_of_basis
      (f := fun t => remIleavedBits_const 2 ((((ileaveZeros_const 2 t) <<< 2) % 2^64) >>> 0) % 2^32)
      (g := fun _ => 0) (morton3_piece_lor 2 0) (morton3_piece_zero 2 0)
      gz rfl 21 (by decide) x hx
  have hyx : remIleavedBits_const 2 ((((ileaveZeros_const 2 y) <<< 1) % 2^64) >>> 2) % 2^32
      = 0 :=
    orlin_eq_of_basis
      (f := fun t => remIleavedBits_const 2 ((((ileaveZeros_const 2 t) <<< 1) % 2^64) >>> 2) % 2^32)
      (g := fun _ => 0) (morton3_piece_lor 1 2) (morton3_piece_zero 1 2)
      gz rfl 21 (by decide) y hy
  have hyy : remIleavedBits_const 2 ((((ileaveZeros_const 2 y) <<< 1) % 2^64) >>> 1) % 2^32
      = y :=
    orlin_eq_of_basis
      (f := fun t => remIleavedBits_const 2 ((((ileaveZeros_const 2 t) <<< 1) % 2^64) >>> 1) % 2^32)
      (g := fun t => t) (morton3_piece_lor 1 1) (morton3_piece_zero 1 1)
      (fun _ _ => rfl) rfl 21 (by decide) y hy
  have hyz : remIleavedBits_const 2 ((((ileaveZeros_const 2 y) <<< 1) % 2^64) >>> 0) % 2^32
      = 0 :=
    orlin_eq_of_basis
      (f := fun t => remIleavedBits_const 2 ((((ileaveZeros_const 2 t) <<< 1) % 2^64) >>> 0) % 2^32)
      (g := fun _ => 0) (morton3_piece_lor 1 0) (morton3_piece_zero 1 0)
      gz rfl 21 (by decide) y hy
  have hzx : remIleavedBits_const 2 ((ileaveZeros_const 2 z) >>> 2) % 2^32 = 0 :=
    orlin_eq_of_basis
      (f := fun t => remIleavedBits_const 2 ((ileaveZeros_const 2 t) >>> 2) % 2^32)
      (g := fun _ => 0) (morton3_pieceZ_lor 2) (morton3_pieceZ_zero 2)
      gz rfl 21 (by decide) z hz
  have hzy : remIleavedBits_const 2 ((ileaveZeros_const 2 z) >>> 1) % 2^32 = 0 :=
    orlin_eq_of_basis
      (f := fun t => remIleavedBits_const 2 ((ileaveZeros_const 2 t) >>> 1) % 2^32)
      (g := fun _ => 0) (morton3_pieceZ_lor 1) (morton3_pieceZ_zero 1)
      gz rfl 21 (by decide) z hz
  have hzz : remIleavedBits_const 2 ((ileaveZeros_const 2 z) >>> 0) % 2^32 = z :=
    orlin_eq_of_basis
      (f := fun t => remIleavedBits_const 2 ((ileaveZeros_const 2 t) >>> 0) % 2^32)
      (g := fun t => t) (morton3_pieceZ_lor 0) (morton3_pieceZ_zero 0)
      (fun _ _ => rfl) rfl 21 (by decide) z hz
  simp only [dileave3, ileave3, lor_shiftRight, remIleavedBits_const_lor, lor_mod_two_pow]
  rw [hxx, hxy, hxz, hyx, hyy, hyz, hzx, hzy, hzz]
  simp only [Nat.or_zero, Nat.zero_or]

/-- Witness for C3 at (x, y, z) = (3, 5, 7). -/
theorem dileave3_ileave3_roundTrip_witness :
    ((3 : Nat) < 2^21 ∧ (5 : Nat) < 2^21 ∧ (7 : Nat) < 2^21) ∧
      dileave3 (ileave3 3 5 7) = (3, 5, 7) :=
  ⟨⟨by decide, by decide, by decide⟩,
    dileave3_ileave3_roundTrip 3 5 7 (by decide) (by decide) (by decide)⟩

/-! ### C5: bit placement of the byte-plane interleaver -/

theorem ileaveBytes_const_char (c : Nat) (hc1 : 1 ≤ c) (hc8 : c ≤ 8)
    (hbase : ∀ b, b < 64 → ileaveBytes_const c (2^b) =
      if b / 8 < c then 2^((b % 8) * c + b / 8) else 0)
    (bytes : Nat) (hb : bytes < 2^64) :
    (∀ i, i < c → ∀ j, j < 8 →
        (ileaveBytes_const c bytes).testBit (j * c + i) = bytes.testBit (8 * i + j)) ∧
      (∀ k, (ileaveBytes_const c bytes).testBit k = true →
        ∃ i j, i < c ∧ j < 8 ∧ k = j * c + i) := by
  have hchar : ∀ m, (ileaveBytes_const c bytes).testBit m = true ↔
      ∃ b, b < 64 ∧ bytes.testBit b = true ∧ (ileaveBytes_const c (2^b)).testBit m = true :=
    fun m => orlin_testBit (ileaveBytes_const_lor c) (ileaveBytes_const_zero c) hb m
  constructor
  · intro i hi j hj
    rw [Bool.eq_iff_iff, hchar]
    constructor
    · rintro ⟨b, hb64, hbit, hfb⟩
      rw [hbase b hb64] at hfb
      by_cases hlane : b / 8 < c
      · rw [if_pos hlane, Nat.testBit_two_pow] at hfb
        have heq : (b % 8) * c + b / 8 = j * c + i := of_decide_eq_true hfb
        have hb8 : b = 8 * i + j := by
          interval_cases c <;> omega
        rw [← hb8]
        exact hbit
      · rw [if_neg hlane, Nat.zero_testBit] at hfb
        exact absurd hfb (by decide)
    · intro hbit
      refine ⟨8 * i + j, by omega, hbit, ?_⟩
      rw [hbase (8 * i + j) (by omega)]
      have hdiv : (8 * i + j) / 8 = i := by omega
      have hmod : (8 * i + j) % 8 = j := by omega
      rw [hdiv, hmod, if_pos hi, Nat.testBit_two_pow]
      exact decide_eq_true rfl
  · intro k hk
    rw [hchar] at hk
    obtain ⟨b, hb64, hbit, hfb⟩ := hk
    rw [hbase b hb64] at hfb
    by_cases hlane : b / 8 < c
    · rw [if_pos hlane, Nat.testBit_two_pow] at hfb
      have heq := of_decide_eq_true hfb
      exact ⟨b / 8, b % 8, hlane, by omega, heq.symm⟩
    · rw [if_neg hlane, Nat.zero_testBit] at hfb
      exact absurd hfb (by decide)

/-- C5: for every lane count ≤ 8 and every 64-bit input, `ileaveBytes`
returns (without tripping an assertion) the matching `ileaveBytes_const`
value, in which bit j of byte lane i of the input appears at output bit
position j·count + i for every lane i < count and bit j < 8, and every set
output bit is at such a position (so no other output bits are set). -/
theorem ileaveBytes_bit_placement (count bytes : Nat) (hc : count ≤ 8) (hb : bytes < 2^64) :
    ileaveBytes bytes count = some (ileaveBytes_const count bytes) ∧
      (∀ i, i < count → ∀ j, j < 8 →
        (ileaveBytes_const count bytes).testBit (j * count + i) = bytes.testBit (8 * i + j)) ∧
      (∀ k, (ileaveBytes_const count bytes).testBit k = true →
        ∃ i j, i < count ∧ j < 8 ∧ k = j * count + i) := by
  refine ⟨?_, ?_⟩
  · interval_cases count <;> rfl
  · by_cases h0 : count = 0
    · subst h0
      constructor
      · intro i hi
        exact absurd hi (by omega)
      · intro k hk
        rw [show ileaveBytes_const 0 bytes = 0 from rfl, Nat.zero_testBit] at hk
        exact absurd hk (by decide)
    · have hbase : ∀ b, b < 64 → ileaveBytes_const count (2^b) =
          if b / 8 < count then 2^((b % 8) * count + b / 8) else 0 := by
        interval_cases count <;> decide
      exact ileaveBytes_const_char count (by omega) hc hbase bytes hb

/-- Witness for C5 at count = 2, bytes = 0x0201 = 513. -/
theorem ileaveBytes_bit_placement_witness :
    ((2 : Nat) ≤ 8 ∧ (513 : Nat) < 2^64) ∧
      (ileaveBytes 513 2 = some (ileaveBytes_const 2 513) ∧
        (∀ i, i < 2 → ∀ j, j < 8 →
          (ileaveBytes_const 2 513).testBit (j * 2 + i) = (513 : Nat).testBit (8 * i + j)) ∧
        (∀ k, (ileaveBytes_const 2 513).testBit k = true →
          ∃ i j, i < 2 ∧ j < 8 ∧ k = j * 2 + i)) :=
  ⟨⟨by decide, by decide⟩, ileaveBytes_bit_placement 2 513 (by decide) (by decide)⟩

/-! ### C6: characterization of the naive zero-bit interleaver -/

theorem ileaveZerosNaiveGo_testBit (bits : Nat) :
    ∀ cnt input b_out m,
      (ileaveZerosNaiveGo bits input b_out cnt).testBit m = true ↔
        ∃ i, i < cnt ∧ m = b_out + i * (bits + 1) ∧ input.testBit i = true := by
  intro cnt
  induction cnt with
  | zero =>
    intro input b_out m
    simp only [ileaveZerosNaiveGo, Nat.zero_testBit]
    constructor
    · intro h
      exact absurd h (by decide)
    · rintro ⟨i, hi, _, _⟩
      exact absurd hi (Nat.not_lt_zero i)
  | succ v ih =>
    intro input b_out m
    simp only [ileaveZerosNaiveGo, Nat.testBit_lor, Bool.or_eq_true]
    constructor
    · rintro (h1 | h2)
      · rw [Nat.testBit_shiftLeft, Bool.and_eq_true] at h1
        obtain ⟨hge, hbit⟩ := h1
        rw [Nat.testBit_land, Bool.and_eq_true] at hbit
        obtain ⟨hbi, hone⟩ := hbit
        rw [show (1 : Nat) = 2^0 from rfl, Nat.testBit_two_pow] at hone
        have hm0 : 0 = m - b_out := of_decide_eq_true hone
        have hge' : b_out ≤ m := of_decide_eq_true hge
        refine ⟨0, Nat.succ_pos v, by omega, ?_⟩
        rw [← hm0] at hbi
        exact hbi
      · obtain ⟨i, hi, hm, hbit⟩ := (ih (input >>> 1) (b_out + (bits + 1)) m).mp h2
        rw [Nat.testBit_shiftRight] at hbit
        refine ⟨i + 1, by omega, ?_, ?_⟩
        · rw [Nat.succ_mul]
          omega
        · rw [Nat.add_comm 1 i] at hbit
          exact hbit
    · rintro ⟨i, hi, hm, hbit⟩
      cases i with
      | zero =>
        left
        have hmb : m = b_out := by omega
        subst hmb
        rw [Nat.testBit_shiftLeft]
        have hsub : m - m = 0 := by omega
        rw [hsub, Nat.testBit_land, show (1 : Nat) = 2^0 from rfl, Nat.testBit_two_pow]
        simp [hbit]
      | succ w =>
        right
        apply (ih (input >>> 1) (b_out + (bits + 1)) m).mpr
        refine ⟨w, by omega, ?_, ?_⟩
        · rw [Nat.succ_mul] at hm
          omega
        · rw [Nat.testBit_shiftRight, Nat.add_comm 1 w]
          exact hbit

/-- C6: for every 32-bit input and every bits ≥ 0, `ileaveZeros_naive` sets
output bit k·(bits+1) to input bit k for every k below
min(32, ceil(64/(bits+1))), sets no other output bits (input bits whose
target position would exceed the 64-bit output are dropped by the loop
bound), and bits = 0 yields the input unchanged. -/
theorem ileaveZeros_naive_bit_spec (input bits : Nat) (h : input < 2^32) :
    (∀ k, k < min 32 (divCeil 64 (bits + 1)) →
        (ileaveZeros_naive input bits).testBit (k * (bits + 1)) = input.testBit k) ∧
      (∀ m, (ileaveZeros_naive input bits).testBit m = true →
        ∃ k, k < min 32 (divCeil 64 (bits + 1)) ∧ m = k * (bits + 1)) ∧
      ileaveZeros_naive input 0 = input := by
  refine ⟨?_, ?_, ?_⟩
  · intro k hk
    rw [Bool.eq_iff_iff]
    unfold ileaveZeros_naive
    rw [ileaveZerosNaiveGo_testBit]
    constructor
    · rintro ⟨i, hi, he, hbit⟩
      have hp : i * (bits + 1) = k * (bits + 1) := by omega
      have hik : i = k := Nat.eq_of_mul_eq_mul_right (Nat.succ_pos bits) hp
      rw [← hik]
      exact hbit
    · intro hbit
      exact ⟨k, hk, by omega, hbit⟩
  · intro m hm
    unfold ileaveZeros_naive at hm
    rw [ileaveZerosNaiveGo_testBit] at hm
    obtain ⟨i, hi, he, _⟩ := hm
    exact ⟨i, hi, by omega⟩
  · apply Nat.eq_of_testBit_eq
    intro m
    rw [Bool.eq_iff_iff]
    unfold ileaveZeros_naive
    rw [ileaveZerosNaiveGo_testBit]
    have hL : min 32 (divCeil 64 (0 + 1)) = 32 := by decide
    rw [hL]
    constructor
    · rintro ⟨i, hi, he, hbit⟩
      have hmi : m = i := by omega
      rw [hmi]
      exact hbit
    · intro hbit
      refine ⟨m, ?_, by omega, hbit⟩
      by_contra hge
      push_neg at hge
      have hfalse : input.testBit m = false :=
        Nat.testBit_lt_two_pow
          (lt_of_lt_of_le h (Nat.pow_le_pow_right (by decide) hge))
      rw [hfalse] at hbit
      exact absurd hbit (by decide)

/-- Witness for C6 at input = 7, bits = 2. -/
theorem ileaveZeros_naive_bit_spec_witness :
    (7 : Nat) < 2^32 ∧
      ((∀ k, k < min 32 (divCeil 64 (2 + 1)) →
          (ileaveZeros_naive 7 2).testBit (k * (2 + 1)) = (7 : Nat).testBit k) ∧
        (∀ m, (ileaveZeros_naive 7 2).testBit m = true →
          ∃ k, k < min 32 (divCeil 64 (2 + 1)) ∧ m = k * (2 + 1)) ∧
        ileaveZeros_naive 7 0 = 7) :=
  ⟨by decide, ileaveZeros_naive_bit_spec 7 2 (by decide)⟩

/-! ### C7: bit placement of the 2-axis interleaver -/

/-- C7: for every pair of 32-bit inputs hi and lo, output bit 2k of
`ileave2 hi lo` equals bit k of lo and output bit 2k+1 equals bit k of hi,
for every k < 32; in particular `ileave2 0b111 0b000 = 0b101010`. -/
theorem ileave2_bit_placement (h l : Nat) (hh : h < 2^32) (hl : l < 2^32) :
    (∀ k, k < 32 →
        (ileave2 h l).testBit (2 * k) = l.testBit k ∧
          (ileave2 h l).testBit (2 * k + 1) = h.testBit k) ∧
      ileave2 7 0 = 42 := by
  constructor
  · have hFlin : ∀ a b : Nat, ((ileave2Spread (a ||| b) 4) <<< 1) % 2^64 =
        (((ileave2Spread a 4) <<< 1) % 2^64) ||| (((ileave2Spread b 4) <<< 1) % 2^64) := by
      intro a b
      rw [ileave2Spread_lor, lor_shiftLeft, lor_mod_two_pow]
    have hF0 : ((ileave2Spread 0 4) <<< 1) % 2^64 = 0 := by
      rw [ileave2Spread_zero, Nat.zero_shiftLeft, Nat.zero_mod]
    have hcharF : ∀ m, ((((ileave2Spread h 4) <<< 1) % 2^64).testBit m = true ↔
        ∃ j, j < 32 ∧ h.testBit j = true ∧
          ((((ileave2Spread (2^j) 4) <<< 1) % 2^64).testBit m = true)) :=
      fun m => orlin_testBit (f := fun t => ((ileave2Spread t 4) <<< 1) % 2^64)
        hFlin hF0 hh m
    have hcharG : ∀ m, ((ileave2Spread l 4).testBit m = true ↔
        ∃ j, j < 32 ∧ l.testBit j = true ∧ ((ileave2Spread (2^j) 4).testBit m = true)) :=
      fun m => orlin_testBit (f := fun t => ileave2Spread t 4)
        (fun a b => ileave2Spread_lor 4 a b) (ileave2Spread_zero 4) hl m
    have hbaseF : ∀ j, j < 32 → ((ileave2Spread (2^j) 4) <<< 1) % 2^64 = 2^(2*j+1) := by
      decide
    have hbaseG : ∀ j, j < 32 → ileave2Spread (2^j) 4 = 2^(2*j) := by
      decide
    intro k hk
    constructor
    · rw [ileave2, Nat.testBit_lor]
      have hFfalse : ((((ileave2Spread h 4) <<< 1) % 2^64).testBit (2*k)) = false := by
        rw [Bool.eq_false_iff]
        intro hT
        obtain ⟨j, hj, _, hp⟩ := (hcharF (2*k)).mp hT
        rw [hbaseF j hj, Nat.testBit_two_pow] at hp
        have := of_decide_eq_true hp
        omega
      rw [hFfalse, Bool.false_or, Bool.eq_iff_iff, hcharG]
      constructor
      · rintro ⟨j, hj, hbit, hp⟩
        rw [hbaseG j hj, Nat.testBit_two_pow] at hp
        have h2 := of_decide_eq_true hp
        have hjk : j = k := by omega
        rw [← hjk]
        exact hbit
      · intro hbit
        refine ⟨k, hk, hbit, ?_⟩
        rw [hbaseG k hk, Nat.testBit_two_pow]
        exact decide_eq_true rfl
    · rw [ileave2, Nat.testBit_lor]
      have hGfalse : (ileave2Spread l 4).testBit (2*k+1) = false := by
        rw [Bool.eq_false_iff]
        intro hT
        obtain ⟨j, hj, _, hp⟩ := (hcharG (2*k+1)).mp hT
        rw [hbaseG j hj, Nat.testBit_two_pow] at hp
        have := of_decide_eq_true hp
        omega
      rw [hGfalse, Bool.or_false, Bool.eq_iff_iff, hcharF]
      constructor
      · rintro ⟨j, hj, hbit, hp⟩
        rw [hbaseF j hj, Nat.testBit_two_pow] at hp
        have h2 := of_decide_eq_true hp
        have hjk : j = k := by omega
        rw [← hjk]
        exact hbit
      · intro hbit
        refine ⟨k, hk, hbit, ?_⟩
        rw [hbaseF k hk, Nat.testBit_two_pow]
        exact decide_eq_true rfl
  · decide

/-- Witness for C7 at hi = 6, lo = 9. -/
theorem ileave2_bit_placement_witness :
    ((6 : Nat) < 2^32 ∧ (9 : Nat) < 2^32) ∧
      ((∀ k, k < 32 →
          (ileave2 6 9).testBit (2 * k) = (9 : Nat).testBit k ∧
            (ileave2 6 9).testBit (2 * k + 1) = (6 : Nat).testBit k) ∧
        ileave2 7 0 = 42) :=
  ⟨⟨by decide, by decide⟩, ileave2_bit_placement 6 9 (by decide) (by decide)⟩

end voxelio
